import Mathlib

/-!
Verification of the feed polling / update-selection core of `src/rss/core.py`
(`RSS` cog). The Python code is shallowly embedded:

* Python strings are modelled as lists of Unicode code points (`List Nat`);
  `str.casefold()` is modelled as per-character ASCII lowercasing (`foldChar`).
* A feed entry (`feedparser.FeedParserDict`) is modelled as an `Entry` record:
  the two structured time fields actually read by the code
  (`published_parsed`, `updated_parsed`, each a sequence of integer calendar
  components) plus an association list for the remaining (text) fields.
* Python tuple comparison on time keys is modelled by `tupLt` / `tupLe` on
  `List Nat` (lexicographic, a strict prefix being smaller).
* Python's `sorted(..., key=...)` (a stable ascending sort) is modelled by
  `List.insertionSort`, which is likewise stable, sorted and a permutation.
* The effectful fetch (`fetch_feed`) is embedded by passing the outcome of the
  HTTP request / parse explicitly (`FetchOutcome`).
-/

namespace RSSCore

/-- Python `<` on tuples of naturals: lexicographic comparison where a strict
prefix is smaller, as used on entry time keys in `format_and_send`
(`self.process_entry_time(e) > last`). -/
def tupLt : List Nat → List Nat → Bool
  | [], [] => false
  | [], _ :: _ => true
  | _ :: _, [] => false
  | a :: as, b :: bs => if a < b then true else if b < a then false else tupLt as bs

/-- Python `<=` on tuples of naturals (total order, so `a <= b` iff `not (b < a)`). -/
def tupLe (a b : List Nat) : Bool := !tupLt b a

theorem tupLt_irrefl : ∀ a, tupLt a a = false
  | [] => rfl
  | a :: as => by simp [tupLt, tupLt_irrefl as]

theorem tupLt_nil_right : ∀ a, tupLt a [] = false
  | [] => rfl
  | _ :: _ => rfl

theorem tupLt_trans : ∀ a b c, tupLt a b = true → tupLt b c = true → tupLt a c = true := by
  intro a
  induction a with
  | nil =>
    intro b c hab hbc
    cases b with
    | nil => simp [tupLt] at hab
    | cons y ys =>
      cases c with
      | nil => simp [tupLt] at hbc
      | cons z zs => simp [tupLt]
  | cons x xs ih =>
    intro b c hab hbc
    cases b with
    | nil => simp [tupLt] at hab
    | cons y ys =>
      cases c with
      | nil => simp [tupLt] at hbc
      | cons z zs =>
        simp only [tupLt] at hab hbc ⊢
        split_ifs at hab hbc ⊢ <;>
          first
          | rfl
          | omega
          | exact ih ys zs hab hbc

theorem tupLt_total : ∀ a b, tupLt a b = true ∨ a = b ∨ tupLt b a = true := by
  intro a
  induction a with
  | nil =>
    intro b
    cases b with
    | nil => exact Or.inr (Or.inl rfl)
    | cons y ys => exact Or.inl rfl
  | cons x xs ih =>
    intro b
    cases b with
    | nil => exact Or.inr (Or.inr rfl)
    | cons y ys =>
      rcases Nat.lt_trichotomy x y with h | h | h
      · exact Or.inl (by simp [tupLt, h])
      · subst h
        rcases ih ys with h2 | h2 | h2
        · exact Or.inl (by simp [tupLt, h2])
        · exact Or.inr (Or.inl (by rw [h2]))
        · exact Or.inr (Or.inr (by simp [tupLt, h2]))
      · exact Or.inr (Or.inr (by simp [tupLt, h]))

theorem tupLt_asymm {a b : List Nat} (h : tupLt a b = true) : tupLt b a = false := by
  by_contra hc
  have hba : tupLt b a = true := by
    cases hb : tupLt b a
    · exact absurd hb hc
    · rfl
  have : tupLt a a = true := tupLt_trans a b a h hba
  rw [tupLt_irrefl] at this
  exact Bool.false_ne_true this

theorem tupLe_refl (a : List Nat) : tupLe a a = true := by
  simp [tupLe, tupLt_irrefl]

theorem tupLe_of_tupLt {a b : List Nat} (h : tupLt a b = true) : tupLe a b = true := by
  simp [tupLe, tupLt_asymm h]

theorem tupLe_iff_not_tupLt {a b : List Nat} : tupLe a b = true ↔ tupLt b a = false := by
  simp [tupLe]

theorem tupLe_total (a b : List Nat) : tupLe a b = true ∨ tupLe b a = true := by
  rcases tupLt_total a b with h | h | h
  · exact Or.inl (tupLe_of_tupLt h)
  · exact Or.inl (by rw [h]; exact tupLe_refl b)
  · exact Or.inr (tupLe_of_tupLt h)

theorem tupLe_trans {a b c : List Nat} (hab : tupLe a b = true) (hbc : tupLe b c = true) :
    tupLe a c = true := by
  rw [tupLe_iff_not_tupLt] at hab hbc ⊢
  by_contra hc
  have hca : tupLt c a = true := by
    cases h : tupLt c a
    · exact absurd h hc
    · rfl
  rcases tupLt_total a b with h | h | h
  · have : tupLt c b = true := tupLt_trans c a b hca h
    rw [hbc] at this
    exact Bool.false_ne_true this
  · subst h
    rw [hbc] at hca
    exact Bool.false_ne_true hca
  · rw [hab] at h
    exact Bool.false_ne_true h

theorem tupLt_of_tupLt_of_tupLe {a b c : List Nat} (hab : tupLt a b = true)
    (hbc : tupLe b c = true) : tupLt a c = true := by
  rw [tupLe_iff_not_tupLt] at hbc
  rcases tupLt_total b c with h | h | h
  · exact tupLt_trans a b c hab h
  · subst h; exact hab
  · rw [hbc] at h
    exact absurd h (by simp)

/-- A Python string, as the list of its Unicode code points. -/
def strOfChars (s : String) : List Nat := s.toList.map Char.toNat

/-- Is `n` the code point of an ASCII uppercase letter? -/
def isUp (n : Nat) : Bool := 65 ≤ n && n ≤ 90

/-- One character of Python `str.casefold()`, modelled as ASCII lowercasing
(code points 65–90 are shifted to 97–122; every other code point is kept). -/
def foldChar (n : Nat) : Nat := if isUp n then n + 32 else n

theorem isUp_foldChar (n : Nat) : isUp (foldChar n) = false := by
  simp only [foldChar, isUp]
  split_ifs with h
  · simp only [Bool.and_eq_true, decide_eq_true_eq] at h
    simp only [Bool.and_eq_false_iff, decide_eq_false_iff_not]
    omega
  · simpa [isUp] using h

/-- Python `needle` is a prefix of `hay` (helper for substring containment). -/
def prefOf : List Nat → List Nat → Bool
  | [], _ => true
  | _ :: _, [] => false
  | a :: as, b :: bs => a == b && prefOf as bs

/-- Python `needle in hay`: contiguous substring containment. -/
def subOf (needle : List Nat) : List Nat → Bool
  | [] => needle.isEmpty
  | b :: bs => prefOf needle (b :: bs) || subOf needle bs

theorem prefOf_mem {needle : List Nat} : ∀ {hay : List Nat}, prefOf needle hay = true →
    ∀ x ∈ needle, x ∈ hay := by
  induction needle with
  | nil => intro hay _ x hx; simp at hx
  | cons a as ih =>
    intro hay hpre x hx
    cases hay with
    | nil => simp [prefOf] at hpre
    | cons b bs =>
      simp only [prefOf, Bool.and_eq_true, beq_iff_eq] at hpre
      rcases List.mem_cons.mp hx with rfl | hx2
      · rw [hpre.1]; exact List.mem_cons_self b bs
      · exact List.mem_cons_of_mem b (ih hpre.2 x hx2)

theorem subOf_mem {needle : List Nat} : ∀ {hay : List Nat}, subOf needle hay = true →
    ∀ x ∈ needle, x ∈ hay := by
  intro hay
  induction hay with
  | nil =>
    intro hsub x hx
    simp only [subOf, List.isEmpty_iff] at hsub
    subst hsub
    simp at hx
  | cons b bs ih =>
    intro hsub x hx
    simp only [subOf, Bool.or_eq_true] at hsub
    rcases hsub with hpre | hrec
    · exact prefOf_mem hpre x hx
    · exact List.mem_cons_of_mem b (ih hrec x hx)

/-- Value of one entry field, as seen by `meets_rule`: a string, a list of
strings, or some other (unmatchable) value. -/
inductive FieldVal
  | str (s : List Nat)
  | list (items : List (List Nat))
  | other
deriving DecidableEq

/-- One feed entry (`feedparser.FeedParserDict`): the two structured time
fields read by `process_entry_time` (sequences of integer calendar
components, `time.struct_time`), plus the remaining fields as an association
list from field name to value (dynamic attribute access on the entry). -/
structure Entry where
  published_parsed : Option (List Nat)
  updated_parsed : Option (List Nat)
  fields : List (String × FieldVal)
deriving DecidableEq

/-- `RSS.process_entry_time` (src/rss/core.py lines 144–150): the first five
components of `published_parsed` if present, else of `updated_parsed`, else
the sentinel `(0,)`. -/
def process_entry_time (x : Entry) : List Nat :=
  match x.published_parsed with
  | some t => t.take 5
  | none =>
    match x.updated_parsed with
    | some t => t.take 5
    | none => [0]

/-- A match requirement (`match_req`): a field name and a term. -/
abbrev MatchRule := String × List Nat

/-- `meets_rule` (closure in `format_and_send`, src/rss/core.py lines 198–215).
No rule: always true. Absent or falsy field value (empty string/list): false.
List value: true iff the term (as written) is contained in some element.
String value: true iff the term (as written) is contained in the case-folded
value — only the value is case-folded, not the term. Other values: false. -/
def meets_rule (rule : Option MatchRule) (e : Entry) : Bool :=
  match rule with
  | none => true
  | some (field, term) =>
    match e.fields.lookup field with
    | none => false
    | some (.str s) =>
      if s = [] then false
      else subOf term (s.map foldChar)
    | some (.list items) =>
      if items = [] then false
      else items.any (fun item => subOf term item)
    | some .other => false

/-- Python truthiness of a feed entry (a dict): true iff it has at least one
key. Used by the forced branch of `format_and_send` (`if not _to_send`). -/
def entryTruthy (e : Entry) : Bool :=
  e.published_parsed.isSome || e.updated_parsed.isSome || !e.fields.isEmpty

/-- Sort key order used by `sorted(..., key=self.process_entry_time)`:
compare entries by their time keys. -/
def keyLe (a b : Entry) : Prop :=
  tupLe (process_entry_time a) (process_entry_time b) = true

instance : DecidableRel keyLe := fun a b => by
  unfold keyLe
  infer_instance

instance : IsTotal Entry keyLe :=
  ⟨fun a b => tupLe_total (process_entry_time a) (process_entry_time b)⟩

instance : IsTrans Entry keyLe :=
  ⟨fun _ _ _ hab hbc => tupLe_trans hab hbc⟩

theorem keyLe_refl (a : Entry) : keyLe a a := tupLe_refl (process_entry_time a)

/-- Cursor normalisation in `format_and_send`:
`last = tuple((last or (0,))[:5])`. An absent (`None`) stored cursor is
modelled as the empty list, which Python treats as falsy just like `None`. -/
def effCursor (cursor : List Nat) : List Nat :=
  (if cursor = [] then [0] else cursor).take 5

/-- Predicate of the normal-mode list comprehension in `format_and_send`
(src/rss/core.py lines 229–237): keep an entry iff its time key strictly
exceeds the effective cursor and it satisfies the match rule. -/
def normalKeep (cursor : List Nat) (rule : Option MatchRule) (e : Entry) : Bool :=
  tupLt (effCursor cursor) (process_entry_time e) && meets_rule rule e

/-- Update selection core of `format_and_send` (src/rss/core.py lines
217–247), the `select(document, cursor, rule, force)` contract of the spec.
Forced mode embeds `next(filter(meets_rule, response.entries), None)`
followed by `if not _to_send: return None` (so a falsy — empty — entry is
discarded). Normal mode embeds the filtered, key-sorted comprehension.
Modelled from the spec: the new-cursor computation (the tail of the send
loop, which keeps the time key of the last entry sent and is not part of
src/) returns the time key of the last selected entry, or the input cursor
unchanged when nothing is selected; forced mode never changes the cursor. -/
def select (entries : List Entry) (cursor : List Nat) (rule : Option MatchRule)
    (force : Bool) : List Entry × List Nat :=
  if force then
    match entries.find? (fun e => meets_rule rule e) with
    | none => ([], cursor)
    | some e => if entryTruthy e then ([e], cursor) else ([], cursor)
  else
    let to_send := (entries.filter (normalKeep cursor rule)).insertionSort keyLe
    (to_send,
      match to_send.getLast? with
      | some e => process_entry_time e
      | none => cursor)

/-- A parsed feed document: the `bozo` malformedness flag and the entries. -/
structure FeedDoc where
  bozo : Bool
  entries : List Entry
deriving DecidableEq

/-- Outcome of the HTTP GET + parse inside `fetch_feed`, passed explicitly:
the two caught network failures (`aiohttp.ClientError`, `asyncio.TimeoutError`),
any other unexpected exception, or a response that parsed to a document. -/
inductive FetchOutcome
  | clientError
  | timeoutError
  | otherException
  | response (doc : FeedDoc)
deriving DecidableEq

/-- `RSS.fetch_feed` (src/rss/core.py lines 105–143), with the effectful part
abstracted as a `FetchOutcome`: every failure returns `None`; a parsed
document marked `bozo` returns `None`; otherwise the document is returned. -/
def fetch_feed : FetchOutcome → Option FeedDoc
  | .clientError => none
  | .timeoutError => none
  | .otherException => none
  | .response doc => if doc.bozo then none else some doc

/-- One HTML tag as queried by `find_feeds`: its `type` and `href` attributes
(absent attribute = `none`). -/
structure PageTag where
  typeAttr : Option (List Nat)
  hrefAttr : Option (List Nat)
deriving DecidableEq

/-- The parsed HTML page as queried by `find_feeds`: the result of
`findAll("link", rel="alternate")` and of `findAll("a")`. -/
structure Page where
  linkAlternates : List PageTag
  atags : List PageTag
deriving DecidableEq

/-- `RSS.find_feeds` (src/rss/core.py lines 151–175), with the page fetch,
URL parse and per-candidate validation abstracted: `scheme` and `hostname`
are the components of `urllib.parse.urlparse(site)`, and `valid` is the
success of `fetch_feed` on a candidate. Mirrors the source: the
`<link rel="alternate">` scan only runs when more than one such tag exists
(`if len(feed_urls) > 1`), link hrefs are added verbatim, anchor hrefs are
prefixed with `scheme + "://" + hostname`, candidates are deduplicated
(a Python set), and only validated candidates are returned. -/
def find_feeds (scheme hostname : Option (List Nat)) (page : Page)
    (valid : List Nat → Bool) : List (List Nat) :=
  let fromLinks : List (List Nat) :=
    if page.linkAlternates.length > 1 then
      page.linkAlternates.filterMap (fun f =>
        match f.typeAttr with
        | some t =>
          if t ≠ [] && (subOf (strOfChars ("rss")) t || subOf (strOfChars ("xml")) t) then
            match f.hrefAttr with
            | some href => if href ≠ [] then some href else none
            | none => none
          else none
        | none => none)
    else []
  let fromAnchors : List (List Nat) :=
    match scheme, hostname with
    | some s, some h =>
      if s ≠ [] && h ≠ [] then
        page.atags.filterMap (fun a =>
          match a.hrefAttr with
          | some href =>
            if href ≠ [] &&
                (subOf (strOfChars ("xml")) href || subOf (strOfChars ("rss")) href ||
                  subOf (strOfChars ("feed")) href) then
              some (s ++ strOfChars ("://") ++ h ++ href)
            else none
          | none => none)
      else []
    | _, _ => []
  ((fromLinks ++ fromAnchors).dedup).filter valid

/-- The cursor values the data model allows: a real 5-tuple of calendar
components, or the sentinel `(0,)` meaning "never seen". -/
def ValidCursor (c : List Nat) : Prop := c = [0] ∨ c.length = 5

theorem effCursor_eq_self {c : List Nat} (h : ValidCursor c) : effCursor c = c := by
  rcases h with rfl | h
  · rfl
  · have hne : c ≠ [] := by
      intro h0
      rw [h0] at h
      simp at h
    simp only [effCursor, if_neg hne]
    exact List.take_of_length_le (by omega)

theorem effCursor_ne_nil (c : List Nat) : effCursor c ≠ [] := by
  unfold effCursor
  split
  · intro h
    simp at h
  · rename_i hne
    cases c with
    | nil => exact absurd rfl hne
    | cons x xs => simp

theorem process_entry_time_length_le (e : Entry) :
    (process_entry_time e).length ≤ 5 := by
  unfold process_entry_time
  cases e.published_parsed with
  | some t => simp [List.length_take]
  | none =>
    cases e.updated_parsed with
    | some t => simp [List.length_take]
    | none => simp

theorem tupLt_zero_right (c : List Nat) (hne : c ≠ []) : tupLt c [0] = false := by
  cases c with
  | nil => exact absurd rfl hne
  | cons x xs =>
    simp only [tupLt]
    split_ifs with h1 h2
    · omega
    · rfl
    · exact tupLt_nil_right xs

theorem select_normal_fst (entries : List Entry) (cursor : List Nat)
    (rule : Option MatchRule) :
    (select entries cursor rule false).1 =
      (entries.filter (normalKeep cursor rule)).insertionSort keyLe := rfl

theorem select_normal_snd (entries : List Entry) (cursor : List Nat)
    (rule : Option MatchRule) :
    (select entries cursor rule false).2 =
      match ((entries.filter (normalKeep cursor rule)).insertionSort keyLe).getLast? with
      | some e => process_entry_time e
      | none => cursor := rfl

theorem keyLe_getLast? {l : List Entry} (hl : l.Pairwise keyLe) {a : Entry}
    (h : l.getLast? = some a) : ∀ e ∈ l, keyLe e a := by
  rcases List.getLast?_eq_some_iff.mp h with ⟨ys, rfl⟩
  rw [List.pairwise_append] at hl
  intro e he
  rcases List.mem_append.mp he with h1 | h2
  · exact hl.2.2 e h1 a (by simp)
  · have he2 : e = a := by simpa using h2
    subst he2
    exact keyLe_refl e

theorem mem_of_getLast? {α : Type} {l : List α} {a : α} (h : l.getLast? = some a) :
    a ∈ l := by
  rcases List.getLast?_eq_some_iff.mp h with ⟨ys, rfl⟩
  simp

/-- The entry whose key the new cursor takes passed the normal-mode filter. -/
theorem getLast?_select_filter {entries : List Entry} {cursor : List Nat}
    {rule : Option MatchRule} {a : Entry}
    (h : ((entries.filter (normalKeep cursor rule)).insertionSort keyLe).getLast? = some a) :
    tupLt (effCursor cursor) (process_entry_time a) = true ∧ meets_rule rule a = true := by
  have ha : a ∈ entries.filter (normalKeep cursor rule) :=
    (List.mem_insertionSort keyLe).mp (mem_of_getLast? h)
  have h2 := (List.mem_filter.mp ha).2
  rw [normalKeep, Bool.and_eq_true] at h2
  exact h2

/-- C1: In normal (non-forced) mode, the update selection returns exactly
those entries of the document whose time-key strictly exceeds the input
cursor and which satisfy the match rule, and the returned sequence is sorted
ascending by time-key (for every document, valid cursor, and rule). -/
theorem select_normal_exact (entries : List Entry) (cursor : List Nat)
    (rule : Option MatchRule) (h : ValidCursor cursor) :
    ((select entries cursor rule false).1).Perm
      (entries.filter (fun e => tupLt cursor (process_entry_time e) && meets_rule rule e))
    ∧ List.Pairwise
        (fun a b => tupLe (process_entry_time a) (process_entry_time b) = true)
        (select entries cursor rule false).1 := by
  have hfst : (select entries cursor rule false).1
      = (entries.filter (normalKeep cursor rule)).insertionSort keyLe := rfl
  have hkeep : normalKeep cursor rule =
      fun e => tupLt cursor (process_entry_time e) && meets_rule rule e := by
    funext e
    rw [normalKeep, effCursor_eq_self h]
  constructor
  · rw [hfst, hkeep]
    exact List.perm_insertionSort keyLe _
  · rw [hfst]
    exact List.sorted_insertionSort keyLe _

def wcEntry : Entry := ⟨some [2024, 3, 4, 5, 6, 7], none, []⟩

/-- Witness for `select_normal_exact` at a concrete document and cursor. -/
theorem select_normal_exact_witness :
    ValidCursor [2024, 3, 4, 5, 5]
    ∧ (((select [wcEntry] [2024, 3, 4, 5, 5] none false).1).Perm
        ([wcEntry].filter
          (fun e => tupLt [2024, 3, 4, 5, 5] (process_entry_time e) && meets_rule none e))
      ∧ List.Pairwise
          (fun a b => tupLe (process_entry_time a) (process_entry_time b) = true)
          (select [wcEntry] [2024, 3, 4, 5, 5] none false).1) :=
  ⟨Or.inr rfl, select_normal_exact [wcEntry] [2024, 3, 4, 5, 5] none (Or.inr rfl)⟩

/-- C2: In normal mode the new cursor equals the maximum time-key among the
returned entries (the input cursor if none is returned), and the selection is
idempotent: re-running it with the new cursor returns an empty selection. -/
theorem select_normal_new_cursor_idempotent (entries : List Entry) (cursor : List Nat)
    (rule : Option MatchRule) (h : ValidCursor cursor) :
    ((select entries cursor rule false).1 = [] →
        (select entries cursor rule false).2 = cursor)
    ∧ ((select entries cursor rule false).1 ≠ [] →
        ∃ e ∈ (select entries cursor rule false).1,
          (select entries cursor rule false).2 = process_entry_time e
          ∧ ∀ e2 ∈ (select entries cursor rule false).1,
              tupLe (process_entry_time e2) (process_entry_time e) = true)
    ∧ (select entries (select entries cursor rule false).2 rule false).1 = [] := by
  have hfst : (select entries cursor rule false).1
      = (entries.filter (normalKeep cursor rule)).insertionSort keyLe := rfl
  cases hlast : ((entries.filter (normalKeep cursor rule)).insertionSort keyLe).getLast? with
  | none =>
    have hts : (entries.filter (normalKeep cursor rule)).insertionSort keyLe = [] :=
      List.getLast?_eq_none_iff.mp hlast
    have hsnd : (select entries cursor rule false).2 = cursor := by
      rw [select_normal_snd, hlast]
    refine ⟨fun _ => hsnd, ?_, ?_⟩
    · intro hne
      rw [hfst] at hne
      exact absurd hts hne
    · rw [hsnd, hfst, hts]
  | some a =>
    have hsnd : (select entries cursor rule false).2 = process_entry_time a := by
      rw [select_normal_snd, hlast]
    have hts_ne : (entries.filter (normalKeep cursor rule)).insertionSort keyLe ≠ [] := by
      intro h0
      rw [h0] at hlast
      simp at hlast
    have hsorted :
        ((entries.filter (normalKeep cursor rule)).insertionSort keyLe).Pairwise keyLe :=
      List.sorted_insertionSort keyLe _
    have hmax := keyLe_getLast? hsorted hlast
    have hfa := getLast?_select_filter hlast
    have hlt : tupLt cursor (process_entry_time a) = true := by
      rw [← effCursor_eq_self h]
      exact hfa.1
    have hka_ne : process_entry_time a ≠ [] := by
      intro h0
      rw [h0, tupLt_nil_right] at hlt
      exact Bool.false_ne_true hlt
    have heffa : effCursor (process_entry_time a) = process_entry_time a := by
      rw [effCursor, if_neg hka_ne]
      exact List.take_of_length_le (process_entry_time_length_le a)
    refine ⟨?_, ?_, ?_⟩
    · intro h0
      rw [hfst] at h0
      exact absurd h0 hts_ne
    · intro _
      refine ⟨a, ?_, hsnd, ?_⟩
      · rw [hfst]
        exact mem_of_getLast? hlast
      · intro e2 he2
        rw [hfst] at he2
        exact hmax e2 he2
    · rw [hsnd, select_normal_fst]
      have hfilt : entries.filter (normalKeep (process_entry_time a) rule) = [] := by
        rw [List.filter_eq_nil_iff]
        intro e he hkeep
        rw [normalKeep, Bool.and_eq_true, heffa] at hkeep
        have hgt : tupLt (process_entry_time a) (process_entry_time e) = true := hkeep.1
        have hsel : e ∈ (entries.filter (normalKeep cursor rule)).insertionSort keyLe := by
          rw [List.mem_insertionSort]
          rw [List.mem_filter]
          refine ⟨he, ?_⟩
          rw [normalKeep, Bool.and_eq_true]
          exact ⟨tupLt_trans _ _ _ hfa.1 hgt, hkeep.2⟩
        have hle : tupLe (process_entry_time e) (process_entry_time a) = true := hmax e hsel
        rw [tupLe_iff_not_tupLt] at hle
        rw [hle] at hgt
        exact Bool.false_ne_true hgt
      rw [hfilt]
      rfl

def w2a : Entry := ⟨some [2024, 1, 1, 0, 0, 0], none, []⟩

def w2b : Entry := ⟨none, some [2024, 1, 1, 0, 5, 0], []⟩

/-- Witness for `select_normal_new_cursor_idempotent` at a concrete document
with the cursor at the initial "never seen" sentinel. -/
theorem select_normal_new_cursor_idempotent_witness :
    ValidCursor [0]
    ∧ (((select [w2a, w2b] [0] none false).1 = [] →
          (select [w2a, w2b] [0] none false).2 = [0])
      ∧ ((select [w2a, w2b] [0] none false).1 ≠ [] →
          ∃ e ∈ (select [w2a, w2b] [0] none false).1,
            (select [w2a, w2b] [0] none false).2 = process_entry_time e
            ∧ ∀ e2 ∈ (select [w2a, w2b] [0] none false).1,
                tupLe (process_entry_time e2) (process_entry_time e) = true)
      ∧ (select [w2a, w2b] (select [w2a, w2b] [0] none false).2 none false).1 = []) :=
  ⟨Or.inl rfl, select_normal_new_cursor_idempotent [w2a, w2b] [0] none (Or.inl rfl)⟩

/-- C9: The per-feed cursor never moves backward: the cursor produced by a
normal-mode poll is greater than or equal to the input cursor — strictly
greater when any entry is selected, unchanged when none is. -/
theorem select_cursor_monotone (entries : List Entry) (cursor : List Nat)
    (rule : Option MatchRule) (h : ValidCursor cursor) :
    tupLe cursor (select entries cursor rule false).2 = true
    ∧ ((select entries cursor rule false).1 ≠ [] →
        tupLt cursor (select entries cursor rule false).2 = true)
    ∧ ((select entries cursor rule false).1 = [] →
        (select entries cursor rule false).2 = cursor) := by
  have hfst : (select entries cursor rule false).1
      = (entries.filter (normalKeep cursor rule)).insertionSort keyLe := rfl
  cases hlast : ((entries.filter (normalKeep cursor rule)).insertionSort keyLe).getLast? with
  | none =>
    have hts : (entries.filter (normalKeep cursor rule)).insertionSort keyLe = [] :=
      List.getLast?_eq_none_iff.mp hlast
    have hsnd : (select entries cursor rule false).2 = cursor := by
      rw [select_normal_snd, hlast]
    refine ⟨?_, ?_, fun _ => hsnd⟩
    · rw [hsnd]
      exact tupLe_refl cursor
    · intro hne
      rw [hfst] at hne
      exact absurd hts hne
  | some a =>
    have hsnd : (select entries cursor rule false).2 = process_entry_time a := by
      rw [select_normal_snd, hlast]
    have hfa := getLast?_select_filter hlast
    have hlt : tupLt cursor (process_entry_time a) = true := by
      rw [← effCursor_eq_self h]
      exact hfa.1
    refine ⟨?_, fun _ => ?_, ?_⟩
    · rw [hsnd]
      exact tupLe_of_tupLt hlt
    · rw [hsnd]
      exact hlt
    · intro h0
      rw [hfst] at h0
      rw [h0] at hlast
      simp at hlast

def w9 : Entry := ⟨some [2025, 6, 7, 8, 9, 10], none, []⟩

/-- Witness for `select_cursor_monotone` at a concrete document and cursor. -/
theorem select_cursor_monotone_witness :
    ValidCursor [2025, 6, 7, 8, 8]
    ∧ (tupLe [2025, 6, 7, 8, 8] (select [w9] [2025, 6, 7, 8, 8] none false).2 = true
      ∧ ((select [w9] [2025, 6, 7, 8, 8] none false).1 ≠ [] →
          tupLt [2025, 6, 7, 8, 8] (select [w9] [2025, 6, 7, 8, 8] none false).2 = true)
      ∧ ((select [w9] [2025, 6, 7, 8, 8] none false).1 = [] →
          (select [w9] [2025, 6, 7, 8, 8] none false).2 = [2025, 6, 7, 8, 8])) :=
  ⟨Or.inr rfl, select_cursor_monotone [w9] [2025, 6, 7, 8, 8] none (Or.inr rfl)⟩

def undatedEntry : Entry := ⟨none, none, [(("title"), FieldVal.str (strOfChars ("hello")))]⟩

/-- C3 counterexample: with the cursor still at the initial "never seen"
sentinel `(0,)` and the match rule satisfied (no rule is set), an entry
lacking both time fields is still not selected — its key `(0,)` does not
strictly exceed the cursor `(0,)` — refuting the claimed "if" direction. -/
theorem select_normal_unknown_cex :
    process_entry_time undatedEntry = [0]
    ∧ meets_rule none undatedEntry = true
    ∧ (select [undatedEntry] [0] none false).1 = [] := by
  decide

/-- C3 amended: an entry whose time-key is the Unknown sentinel `(0,)` is
never selected in normal mode, for every document, cursor and rule — the
sentinel never strictly exceeds the (always nonempty) effective cursor. -/
theorem select_normal_unknown_never_selected (entries : List Entry)
    (cursor : List Nat) (rule : Option MatchRule) (e : Entry)
    (he : process_entry_time e = [0]) :
    e ∉ (select entries cursor rule false).1 := by
  intro hmem
  rw [select_normal_fst, List.mem_insertionSort, List.mem_filter] at hmem
  have hk := hmem.2
  rw [normalKeep, Bool.and_eq_true, he] at hk
  have h0 := hk.1
  rw [tupLt_zero_right (effCursor cursor) (effCursor_ne_nil cursor)] at h0
  exact Bool.false_ne_true h0

def undatedEntry2 : Entry := ⟨none, none, [(("summary"), FieldVal.str (strOfChars ("hi")))]⟩

/-- Witness for `select_normal_unknown_never_selected` at a concrete document
and an established real cursor. -/
theorem select_normal_unknown_never_selected_witness :
    process_entry_time undatedEntry2 = [0]
    ∧ undatedEntry2 ∉ (select [undatedEntry2] [2024, 1, 1, 0, 0] none false).1 :=
  ⟨rfl, select_normal_unknown_never_selected [undatedEntry2] [2024, 1, 1, 0, 0] none
    undatedEntry2 rfl⟩

/-- C4: the time-key is the first five components of `published_parsed` when
present, else of `updated_parsed`, else the sentinel `(0,)`; and the sentinel
compares strictly less than every concrete 5-tuple time-key under the
selector's ordering. -/
theorem process_entry_time_spec (e : Entry) :
    (∀ t, e.published_parsed = some t → process_entry_time e = t.take 5)
    ∧ (e.published_parsed = none →
        ∀ t, e.updated_parsed = some t → process_entry_time e = t.take 5)
    ∧ (e.published_parsed = none → e.updated_parsed = none →
        process_entry_time e = [0])
    ∧ (∀ k : List Nat, k.length = 5 → tupLt [0] k = true) := by
  refine ⟨?_, ?_, ?_, ?_⟩
  · intro t ht
    unfold process_entry_time
    rw [ht]
  · intro hp t ht
    unfold process_entry_time
    rw [hp, ht]
  · intro hp hu
    unfold process_entry_time
    rw [hp, hu]
  · intro k hk
    cases k with
    | nil => simp at hk
    | cons a t =>
      cases t with
      | nil => simp at hk
      | cons b t2 =>
        simp only [tupLt]
        split_ifs with h1 h2
        · rfl
        · omega
        · rfl

def pubEntry : Entry := ⟨some [2024, 1, 2, 3, 4, 5, 6, 7, 8], none, []⟩

/-- Witness for `process_entry_time_spec` at a concrete dated entry. -/
theorem process_entry_time_spec_witness :
    process_entry_time pubEntry = [2024, 1, 2, 3, 4]
    ∧ tupLt [0] [2024, 1, 2, 3, 4] = true :=
  ⟨(process_entry_time_spec pubEntry).1 _ rfl,
    (process_entry_time_spec pubEntry).2.2.2 _ rfl⟩

def fooBarEntry : Entry := ⟨none, none, [(("title"), FieldVal.str (strOfChars ("FooBar")))]⟩

def barEntry : Entry := ⟨none, none, [(("title"), FieldVal.str (strOfChars ("bar")))]⟩

/-- C5 counterexample: for the rule `(title, "Foo")` on an entry titled
`"FooBar"`, the case-folded term `"foo"` is a substring of the case-folded
value `"foobar"`, yet the evaluator returns false — the code folds only the
value, never the term — refuting the claimed equivalence. -/
theorem meets_rule_casefold_iff_cex :
    fooBarEntry.fields.lookup ("title") = some (FieldVal.str (strOfChars ("FooBar")))
    ∧ ¬ (meets_rule (some (("title"), strOfChars ("Foo"))) fooBarEntry = true
        ↔ subOf ((strOfChars ("Foo")).map foldChar)
            ((strOfChars ("FooBar")).map foldChar) = true) := by
  decide

/-- C5 amended: for every entry whose named field holds a nonempty string
value, the evaluator returns true iff the term, as written (not case-folded),
is a substring of the case-folded field value; in particular the rule
`(title, "foo")` matches an entry with title `"FooBar"` and does not match
one with title `"bar"`. -/
theorem meets_rule_string_spec (e : Entry) (field : String) (term s : List Nat)
    (h : e.fields.lookup field = some (FieldVal.str s)) (hs : s ≠ []) :
    (meets_rule (some (field, term)) e = true ↔ subOf term (s.map foldChar) = true)
    ∧ meets_rule (some (("title"), strOfChars ("foo"))) fooBarEntry = true
    ∧ meets_rule (some (("title"), strOfChars ("foo"))) barEntry = false := by
  refine ⟨?_, by decide, by decide⟩
  simp only [meets_rule, h]
  rw [if_neg hs]

/-- Witness for `meets_rule_string_spec` at the `"FooBar"`-titled entry. -/
theorem meets_rule_string_spec_witness :
    fooBarEntry.fields.lookup ("title") = some (FieldVal.str (strOfChars ("FooBar")))
    ∧ strOfChars ("FooBar") ≠ []
    ∧ ((meets_rule (some (("title"), strOfChars ("foo"))) fooBarEntry = true
        ↔ subOf (strOfChars ("foo")) ((strOfChars ("FooBar")).map foldChar) = true)
      ∧ meets_rule (some (("title"), strOfChars ("foo"))) fooBarEntry = true
      ∧ meets_rule (some (("title"), strOfChars ("foo"))) barEntry = false) :=
  ⟨by decide, by decide,
    meets_rule_string_spec fooBarEntry ("title") (strOfChars ("foo"))
      (strOfChars ("FooBar")) (by decide) (by decide)⟩

/-- C10: because the evaluator case-folds only the field value and not the
term, a rule whose term contains an uppercase (ASCII) character never matches
a string-valued field; such a rule can only ever match a list-valued field. -/
theorem meets_rule_uppercase_term_string_false (e : Entry) (field : String)
    (term : List Nat) (hterm : term.any isUp = true) :
    (∀ s, e.fields.lookup field = some (FieldVal.str s) →
        meets_rule (some (field, term)) e = false)
    ∧ (meets_rule (some (field, term)) e = true →
        ∃ items, e.fields.lookup field = some (FieldVal.list items)) := by
  rcases List.any_eq_true.mp hterm with ⟨c, hc, hup⟩
  have hnosub : ∀ s : List Nat, subOf term (s.map foldChar) = false := by
    intro s
    rw [← Bool.not_eq_true]
    intro hsub
    have hcmem : c ∈ s.map foldChar := subOf_mem hsub c hc
    rcases List.mem_map.mp hcmem with ⟨d, _, hd⟩
    rw [← hd, isUp_foldChar] at hup
    exact Bool.false_ne_true hup
  constructor
  · intro s hfld
    simp only [meets_rule, hfld]
    split_ifs with h0
    · rfl
    · exact hnosub s
  · intro htrue
    simp only [meets_rule] at htrue
    split at htrue
    · exact absurd htrue (by simp)
    · rename_i s heq
      split_ifs at htrue with h0
      rw [hnosub s] at htrue
      exact absurd htrue (by simp)
    · rename_i items heq
      exact ⟨items, heq⟩
    · exact absurd htrue (by simp)

def w10 : Entry := ⟨none, none, [(("title"), FieldVal.str (strOfChars ("foobar")))]⟩

/-- Witness for `meets_rule_uppercase_term_string_false`: the uppercase term
`"Foo"` does not match the string title `"foobar"`. -/
theorem meets_rule_uppercase_term_string_false_witness :
    (strOfChars ("Foo")).any isUp = true
    ∧ meets_rule (some (("title"), strOfChars ("Foo"))) w10 = false :=
  ⟨by decide,
    (meets_rule_uppercase_term_string_false w10 ("title") (strOfChars ("Foo"))
      (by decide)).1 (strOfChars ("foobar")) (by decide)⟩

def emptyEntry : Entry := ⟨none, none, []⟩

/-- C6 counterexample: the first (and only) entry of the document satisfies
the (absent) match rule, yet the forced selection is empty, because the entry
is an empty mapping and Python's `if not _to_send` treats it as "nothing
found" — refuting "the selection is the first entry satisfying the rule". -/
theorem select_forced_cex :
    [emptyEntry].find? (fun e => meets_rule none e) = some emptyEntry
    ∧ (select [emptyEntry] [0] none true).1 = []
    ∧ (select [emptyEntry] [0] none true).1 ≠ [emptyEntry] := by
  decide

/-- C6 amended: in forced mode the selection contains at most one entry — the
first entry satisfying the match rule, provided that entry is non-empty
(Python truthiness; an entry with no fields at all is discarded, yielding an
empty selection) — regardless of the cursor; if no entry satisfies the rule,
the selection is empty and the cursor is unchanged. -/
theorem select_forced_spec (entries : List Entry) (cursor : List Nat)
    (rule : Option MatchRule) :
    (select entries cursor rule true).1.length ≤ 1
    ∧ (∀ a, entries.find? (fun e => meets_rule rule e) = some a →
        entryTruthy a = true → (select entries cursor rule true).1 = [a])
    ∧ (∀ a, entries.find? (fun e => meets_rule rule e) = some a →
        entryTruthy a = false →
        (select entries cursor rule true).1 = []
        ∧ (select entries cursor rule true).2 = cursor)
    ∧ (entries.find? (fun e => meets_rule rule e) = none →
        (select entries cursor rule true).1 = []
        ∧ (select entries cursor rule true).2 = cursor) := by
  have hbody : select entries cursor rule true =
      match entries.find? (fun e => meets_rule rule e) with
      | none => ([], cursor)
      | some e => if entryTruthy e then ([e], cursor) else ([], cursor) := rfl
  cases hf : entries.find? (fun e => meets_rule rule e) with
  | none =>
    have hsel : select entries cursor rule true = ([], cursor) := by
      rw [hbody, hf]
    refine ⟨?_, ?_, ?_, fun _ => ?_⟩
    · rw [hsel]
      simp
    · intro a ha
      exact absurd ha (by simp)
    · intro a ha
      exact absurd ha (by simp)
    · rw [hsel]
      exact ⟨rfl, rfl⟩
  | some b =>
    cases htr : entryTruthy b with
    | true =>
      have hsel : select entries cursor rule true = ([b], cursor) := by
        rw [hbody, hf]
        simp [htr]
      refine ⟨?_, ?_, ?_, ?_⟩
      · rw [hsel]
        simp
      · intro a ha _
        have hab : b = a := by
          injection ha
        subst hab
        rw [hsel]
      · intro a ha htr2
        have hab : b = a := by
          injection ha
        subst hab
        rw [htr] at htr2
        exact absurd htr2 (by simp)
      · intro h0
        exact absurd h0 (by simp)
    | false =>
      have hsel : select entries cursor rule true = ([], cursor) := by
        rw [hbody, hf]
        simp [htr]
      refine ⟨?_, ?_, ?_, ?_⟩
      · rw [hsel]
        simp
      · intro a ha htr2
        have hab : b = a := by
          injection ha
        subst hab
        rw [htr] at htr2
        exact absurd htr2 (by simp)
      · intro a ha _
        rw [hsel]
        exact ⟨rfl, rfl⟩
      · intro h0
        exact absurd h0 (by simp)

def wForced : Entry := ⟨none, none, [(("title"), FieldVal.str (strOfChars ("hi")))]⟩

/-- Witness for `select_forced_spec`: a non-empty first matching entry is
selected alone, whatever the cursor. -/
theorem select_forced_spec_witness :
    [wForced].find? (fun e => meets_rule none e) = some wForced
    ∧ entryTruthy wForced = true
    ∧ (select [wForced] [2024, 1, 1, 0, 0] none true).1 = [wForced] :=
  ⟨by decide, by decide,
    (select_forced_spec [wForced] [2024, 1, 1, 0, 0] none).2.1 wForced
      (by decide) (by decide)⟩

/-- C7: `fetch_feed` returns `None` on a network error, a timeout, or any
unexpected exception, and on a parse with the bozo flag set; it returns the
parsed document exactly when the outcome is a response that parsed cleanly. -/
theorem fetch_feed_spec :
    fetch_feed .clientError = none
    ∧ fetch_feed .timeoutError = none
    ∧ fetch_feed .otherException = none
    ∧ (∀ doc : FeedDoc, doc.bozo = true → fetch_feed (.response doc) = none)
    ∧ (∀ o doc, fetch_feed o = some doc → o = .response doc ∧ doc.bozo = false) := by
  refine ⟨rfl, rfl, rfl, ?_, ?_⟩
  · intro doc h
    simp only [fetch_feed, h]
    rfl
  · intro o doc h
    cases o with
    | clientError => exact absurd h (by simp [fetch_feed])
    | timeoutError => exact absurd h (by simp [fetch_feed])
    | otherException => exact absurd h (by simp [fetch_feed])
    | response d =>
      simp only [fetch_feed] at h
      split_ifs at h with hb
      have hd : d = doc := by
        injection h
      subst hd
      exact ⟨rfl, by simpa using hb⟩

/-- Witness for `fetch_feed_spec` at concrete bozo and clean documents. -/
theorem fetch_feed_spec_witness :
    FeedDoc.bozo ⟨true, []⟩ = true
    ∧ fetch_feed (.response ⟨true, []⟩) = none
    ∧ (FetchOutcome.response ⟨false, []⟩ = FetchOutcome.response ⟨false, []⟩
        ∧ FeedDoc.bozo ⟨false, []⟩ = false) :=
  ⟨rfl, fetch_feed_spec.2.2.2.1 ⟨true, []⟩ rfl,
    fetch_feed_spec.2.2.2.2 (FetchOutcome.response ⟨false, []⟩) ⟨false, []⟩ rfl⟩

def c8Page : Page :=
  ⟨[⟨some (strOfChars ("application/rss+xml")), some (strOfChars ("/feed.xml"))⟩], []⟩

/-- C8 (code bug): on a page whose only feed hint is a single
`<link rel="alternate" type="application/rss+xml" href="/feed.xml">` and base
URL `https://example.com/`, `find_feeds` returns `[]`, not the claimed
resolved URL, even though the validator accepts exactly that URL: the link
scan only runs when more than one link tag exists (`len(feed_urls) > 1`),
and link hrefs are never resolved against the base. -/
theorem find_feeds_single_link_scenario :
    find_feeds (some (strOfChars ("https"))) (some (strOfChars ("example.com"))) c8Page
      (fun u => u == strOfChars ("https://example.com/feed.xml")) = []
    ∧ find_feeds (some (strOfChars ("https"))) (some (strOfChars ("example.com"))) c8Page
        (fun u => u == strOfChars ("https://example.com/feed.xml"))
      ≠ [strOfChars ("https://example.com/feed.xml")] := by
  constructor
  · decide
  · decide

end RSSCore
